import Mathlib

/-
Verification of the BLE-to-HTTP proxy (src/main.py and src/macedition.py).

The two source variants share the same protocol core; every definition below
is a shallow embedding of that core, with doc comments citing the lines of
both files it is taken from.  Bytes are modelled as `List Nat`, Python dicts
as insertion-ordered association lists with last-write-wins update (the exact
semantics of CPython dicts), Python exceptions as `Except` / early-return,
and the external BLE transport as an oracle supplying the list of inbound
notifications delivered during a request cycle.
-/

set_option maxHeartbeats 1000000

/-- Byte buffers (`bytes` in the source) are lists of byte values. -/
abbrev Bytes := List Nat

/-- src/main.py line 9, src/macedition.py line 14: `BLE_CHUNK_SIZE = 120`. -/
def BLE_CHUNK_SIZE : Nat := 120

/-- src/main.py line 11, src/macedition.py line 16: `REQUEST_TIMEOUT = 90.0`
(seconds; the float value is integral, embedded as the natural number 90). -/
def REQUEST_TIMEOUT : Nat := 90

/-- Recursive worker for `chunk_bytes`: chunks of size `m + 1`, so that the
positivity of the chunk size is structural.  `chunkGo m b` returns
`[b[0:m+1], b[m+1:2*(m+1)], ...]`, exactly the sequence produced by
`for i in range(0, len(b), n): yield b[i:i + n]` with `n = m + 1`. -/
def chunkGo (m : Nat) : Bytes → List Bytes
  | [] => []
  | x :: xs => (x :: List.take m xs) :: chunkGo m (List.drop m xs)
  termination_by b => b.length
  decreasing_by simp only [List.length_drop, List.length_cons]; omega

/-- src/main.py lines 13-15, src/macedition.py lines 20-22:
`def chunk_bytes(b, n): for i in range(0, len(b), n): yield b[i:i + n]`.
For `n = 0` Python's `range` raises `ValueError`, embedded as `none`;
for `n > 0` the generator yields the chunk list `chunkGo (n - 1) b`. -/
def chunk_bytes (b : Bytes) (n : Nat) : Option (List Bytes) :=
  match n with
  | 0 => none
  | m + 1 => some (chunkGo m b)

theorem chunkGo_nil (m : Nat) : chunkGo m [] = [] := by
  rw [chunkGo]

theorem chunkGo_cons (m : Nat) (x : Nat) (xs : Bytes) :
    chunkGo m (x :: xs) = (x :: List.take m xs) :: chunkGo m (List.drop m xs) := by
  rw [chunkGo]

theorem chunkGo_eq_nil_iff (m : Nat) (b : Bytes) : chunkGo m b = [] ↔ b = [] := by
  cases b with
  | nil => simp [chunkGo_nil]
  | cons x xs => simp [chunkGo_cons]

theorem chunkGo_step (m : Nat) (b : Bytes) (hb : b ≠ []) :
    chunkGo m b = List.take (m + 1) b :: chunkGo m (List.drop (m + 1) b) := by
  cases b with
  | nil => exact absurd rfl hb
  | cons x xs => simp [chunkGo_cons]

/-- Concatenating the chunks reproduces the input buffer. -/
theorem chunkGo_join (m : Nat) (b : Bytes) : (chunkGo m b).flatten = b := by
  generalize h : b.length = k
  induction k using Nat.strong_induction_on generalizing b with
  | _ k ih =>
    cases b with
    | nil => simp [chunkGo_nil]
    | cons x xs =>
      rw [chunkGo_cons, List.flatten_cons]
      have hlen : (List.drop m xs).length < k := by
        simp only [List.length_drop]
        simp only [List.length_cons] at h
        omega
      rw [ih _ hlen _ rfl]
      simp [List.take_append_drop]

/-- Every chunk except possibly the last has length exactly `m + 1`. -/
theorem chunkGo_dropLast_length (m : Nat) (b : Bytes) :
    ∀ c ∈ (chunkGo m b).dropLast, c.length = m + 1 := by
  generalize h : b.length = k
  induction k using Nat.strong_induction_on generalizing b with
  | _ k ih =>
    cases b with
    | nil => simp [chunkGo_nil]
    | cons x xs =>
      rw [chunkGo_cons]
      cases hrest : chunkGo m (List.drop m xs) with
      | nil => simp
      | cons c cs =>
        rw [List.dropLast_cons₂]
        intro d hd
        rcases List.mem_cons.mp hd with hhead | htail
        · subst hhead
          have hne : List.drop m xs ≠ [] := by
            intro hnil
            rw [hnil, chunkGo_nil] at hrest
            exact List.noConfusion hrest
          have hm : m ≤ xs.length := by
            by_contra hlt
            exact hne (List.drop_eq_nil_of_le (by omega))
          simp [List.length_take, Nat.min_eq_left hm]
        · have hlen : (List.drop m xs).length < k := by
            simp only [List.length_drop]
            simp only [List.length_cons] at h
            omega
          have := ih _ hlen (List.drop m xs) rfl
          rw [hrest] at this
          exact this d htail

/-- Every chunk is nonempty. -/
theorem chunkGo_ne_nil (m : Nat) (b : Bytes) : ∀ c ∈ chunkGo m b, c ≠ [] := by
  generalize h : b.length = k
  induction k using Nat.strong_induction_on generalizing b with
  | _ k ih =>
    cases b with
    | nil => simp [chunkGo_nil]
    | cons x xs =>
      rw [chunkGo_cons]
      intro c hc
      rcases List.mem_cons.mp hc with hhead | htail
      · subst hhead; exact List.cons_ne_nil _ _
      · have hlen : (List.drop m xs).length < k := by
          simp only [List.length_drop]
          simp only [List.length_cons] at h
          omega
        exact ih _ hlen (List.drop m xs) rfl c htail

/-- Lookup in a Python dict modelled as an association list: returns the
value of the first (and, after `dictSet` updates, only) entry with key `k`.
Embeds `d.get(k)` / `d[k]`. -/
def dictGet {α β : Type} [DecidableEq α] : List (α × β) → α → Option β
  | [], _ => none
  | (k, v) :: rest, a => if k = a then some v else dictGet rest a

/-- Update in a Python dict modelled as an association list: `d[k] = v`
overwrites in place if the key is present, else appends at the end —
exactly CPython's insertion-ordered dict semantics. -/
def dictSet {α β : Type} [DecidableEq α] : List (α × β) → α → β → List (α × β)
  | [], a, b => [(a, b)]
  | (k, v) :: rest, a, b => if k = a then (k, b) :: rest else (k, v) :: dictSet rest a b

theorem dictGet_dictSet_self {α β : Type} [DecidableEq α]
    (d : List (α × β)) (k : α) (v : β) : dictGet (dictSet d k v) k = some v := by
  induction d with
  | nil => simp [dictGet, dictSet]
  | cons p rest ih =>
    obtain ⟨k', v'⟩ := p
    by_cases h : k' = k
    · simp [dictSet, dictGet, h]
    · simp [dictSet, dictGet, h, ih]

theorem dictGet_dictSet_ne {α β : Type} [DecidableEq α]
    (d : List (α × β)) (k k' : α) (v : β) (h : k' ≠ k) :
    dictGet (dictSet d k v) k' = dictGet d k' := by
  induction d with
  | nil =>
    simp only [dictSet, dictGet]
    rw [if_neg (fun hh => h hh.symm)]
  | cons p rest ih =>
    obtain ⟨a, b⟩ := p
    by_cases ha : a = k
    · subst ha
      simp only [dictSet, if_pos rfl, dictGet]
      rw [if_neg (fun hh => h hh.symm), if_neg (fun hh => h hh.symm)]
    · simp only [dictSet, if_neg ha, dictGet]
      by_cases ha' : a = k'
      · rw [if_pos ha', if_pos ha']
      · rw [if_neg ha', if_neg ha', ih]

theorem dictSet_of_get_none {α β : Type} [DecidableEq α]
    (d : List (α × β)) (k : α) (v : β) (h : dictGet d k = none) :
    dictSet d k v = d ++ [(k, v)] := by
  induction d with
  | nil => simp [dictSet]
  | cons p rest ih =>
    obtain ⟨a, b⟩ := p
    simp only [dictGet] at h
    by_cases ha : a = k
    · rw [if_pos ha] at h
      exact Option.noConfusion h
    · rw [if_neg ha] at h
      simp only [dictSet, if_neg ha, List.cons_append]
      rw [ih h]

theorem dictGet_append {α β : Type} [DecidableEq α]
    (d₁ d₂ : List (α × β)) (k : α) :
    dictGet (d₁ ++ d₂) k =
      match dictGet d₁ k with
      | some v => some v
      | none => dictGet d₂ k := by
  induction d₁ with
  | nil => simp [dictGet]
  | cons p rest ih =>
    obtain ⟨a, b⟩ := p
    by_cases ha : a = k
    · simp [dictGet, ha]
    · simp [dictGet, ha, ih]

theorem dictGet_mem {α β : Type} [DecidableEq α]
    (d : List (α × β)) (k : α) (v : β) (h : dictGet d k = some v) : (k, v) ∈ d := by
  induction d with
  | nil => exact Option.noConfusion h
  | cons p rest ih =>
    obtain ⟨a, b⟩ := p
    simp only [dictGet] at h
    by_cases ha : a = k
    · subst ha
      rw [if_pos rfl] at h
      injection h with h1
      subst h1
      exact List.mem_cons_self _ _
    · rw [if_neg ha] at h
      exact List.mem_cons_of_mem _ (ih h)

theorem dictGet_eq_none_iff {α β : Type} [DecidableEq α]
    (d : List (α × β)) (k : α) :
    dictGet d k = none ↔ k ∉ d.map Prod.fst := by
  induction d with
  | nil => simp [dictGet]
  | cons p rest ih =>
    obtain ⟨a, b⟩ := p
    simp only [dictGet, List.map_cons, List.mem_cons]
    by_cases ha : a = k
    · subst ha
      simp
    · rw [if_neg ha, ih]
      constructor
      · intro hn hmem
        rcases hmem with h1 | h2
        · exact ha h1.symm
        · exact hn h2
      · intro hn h2
        exact hn (Or.inr h2)

theorem dictGet_of_mem_nodup {α β : Type} [DecidableEq α]
    (d : List (α × β)) (k : α) (v : β)
    (hnd : (d.map Prod.fst).Nodup) (hmem : (k, v) ∈ d) : dictGet d k = some v := by
  induction d with
  | nil => exact absurd hmem (List.not_mem_nil _)
  | cons p rest ih =>
    obtain ⟨a, b⟩ := p
    simp only [List.map_cons, List.nodup_cons] at hnd
    rcases List.mem_cons.mp hmem with hhead | htail
    · injection hhead with h1 h2
      subst h1
      subst h2
      simp [dictGet]
    · have hak : a ≠ k := by
        intro haeq
        subst haeq
        exact hnd.1 (List.mem_map.mpr ⟨(a, v), htail, rfl⟩)
      simp only [dictGet, if_neg hak]
      exact ih hnd.2 htail

/-- State of one `send_command_and_get_response` call:
`fragments = {}` (src/main.py line 100, src/macedition.py line 122), a dict
from request id to a dict from sequence number to payload bytes, and
`finished = asyncio.Event()` (line 101 / 123) as a boolean flag.
Fragment ids are `msg.get("id")`: `none` models Python `None` (key absent or
JSON null); sequence numbers are Python ints, modelled as `Int`. -/
structure SessionState where
  fragments : List (Option String × List (Int × Bytes))
  finished : Bool
deriving DecidableEq

/-- The fresh state at the start of every call (empty dict, unset event). -/
def initSession : SessionState := { fragments := [], finished := false }

/-- Result of `int(msg.get("seq", 0))`: `ok n` when the conversion succeeds
(missing key gives `ok 0`), `bad` when `int(...)` raises. -/
inductive SeqField
  | ok (n : Int)
  | bad
deriving DecidableEq

/-- Result of the `payload_b64` extraction: `absent` when the key is missing
or falsy (payload becomes `b""`), `valid p` when `base64.b64decode`
succeeds with bytes `p`, `invalid` when `b64decode` raises. -/
inductive PayloadField
  | absent
  | valid (p : Bytes)
  | invalid
deriving DecidableEq

/-- One inbound notification, abstracted at the failure points of the decode
pipeline in `notif_handler` (src/main.py lines 103-115, src/macedition.py
lines 126-144): `badUtf8` when `data.decode("utf-8")` raises, `badJson`
when `json.loads` raises, otherwise the parsed message fields. -/
inductive InboundData
  | badUtf8
  | badJson
  | msg (id : Option String) (seq : SeqField) (payload : PayloadField) (final : Bool)
deriving DecidableEq

/-- src/main.py lines 103-115 and src/macedition.py lines 126-144: the
notification callback.  Every decode failure is caught (main.py by the
enclosing `try/except`, macedition.py partly by an explicit
`UnicodeDecodeError` handler with the same effect) and leaves the state
unchanged; otherwise `fragments.setdefault(rid, {})[seq] = payload` stores
the payload and `final` truthiness sets the `finished` event.  The failure
points occur in source order: utf-8 decode, JSON parse, `int(seq)`,
`b64decode(payload_b64)` — all before the store, so a failing message
stores nothing. -/
def notif_handler (st : SessionState) (d : InboundData) : SessionState :=
  match d with
  | .badUtf8 => st
  | .badJson => st
  | .msg rid seqf payloadf final =>
    match seqf with
    | .bad => st
    | .ok seq =>
      match payloadf with
      | .invalid => st
      | .absent =>
        { fragments := dictSet st.fragments rid
            (dictSet ((dictGet st.fragments rid).getD []) seq ([] : Bytes))
          finished := st.finished || final }
      | .valid p =>
        { fragments := dictSet st.fragments rid
            (dictSet ((dictGet st.fragments rid).getD []) seq p)
          finished := st.finished || final }

/-- Processing a whole delivery sequence of notifications in order. -/
def ingestList (st : SessionState) (l : List InboundData) : SessionState :=
  l.foldl notif_handler st

instance intLeDecidable : DecidableRel (fun a b : Int => a ≤ b) :=
  fun a b => Int.decLe a b

/-- `sorted(parts.keys())` (ascending order of Python ints). -/
def sortKeys (ks : List Int) : List Int :=
  List.insertionSort (fun a b : Int => a ≤ b) ks

/-- Ordering of fragment entries by sequence number. -/
def pairLe (p q : Int × Bytes) : Prop := p.1 ≤ q.1

instance pairLeDecidable : DecidableRel pairLe :=
  fun p q => Int.decLe p.1 q.1

/-- Fragment entries sorted by ascending sequence number. -/
def sortPairs (l : List (Int × Bytes)) : List (Int × Bytes) :=
  List.insertionSort pairLe l

/-- src/main.py line 138, src/macedition.py line 162:
`assembled = b"".join(parts[i] for i in sorted(parts.keys()))` — the
concatenation, in ascending key order, of the stored payloads.  Note the
absence of any gap check on the key range. -/
def assembleParts (parts : List (Int × Bytes)) : Bytes :=
  ((sortKeys (parts.map Prod.fst)).map (fun i => (dictGet parts i).getD [])).flatten

/-- src/main.py lines 137-138, src/macedition.py lines 161-162:
`parts = fragments.get(rid, {})` followed by the sorted join. -/
def assembleFor (st : SessionState) (rid : Option String) : Bytes :=
  assembleParts ((dictGet st.fragments rid).getD [])

/-- Failures a request cycle can surface (`TimeoutError` from the wait,
`BleakError`/`ConnectionError` from the transport collaborator). -/
inductive BleErr
  | timeout
  | connectionError
deriving DecidableEq

/-- src/main.py lines 99-145, src/macedition.py lines 121-163: one request
cycle, with the transport oracled by the list of notifications delivered
while the call waits.  `fragments`/`finished` start fresh (lines 100-101 /
122-123); if no processed notification ever sets the event, the
`asyncio.wait_for` expires and the call raises
`TimeoutError("Timed out waiting for response")` (lines 130-133 /
155-158); otherwise the fragments stored under the command's own id are
assembled (lines 135-139 / 160-163). -/
def send_command_and_get_response (cmd_id : String) (inbound : List InboundData) :
    Except BleErr Bytes :=
  let st := ingestList initSession inbound
  if st.finished then Except.ok (assembleFor st (some cmd_id))
  else Except.error BleErr.timeout

/-- Result of decoding an assembled buffer as a JSON response envelope
(src/main.py lines 174-179): `fail` when any of utf-8 decode, `json.loads`,
`int(status)` or `b64decode(body_b64)` raises, else the envelope fields. -/
inductive RespParse
  | fail
  | ok (status : Int) (headers : List (String × String)) (body : Bytes)
deriving DecidableEq

/-- An HTTP response as built by `web.Response(...)` in `handle_request`:
status, body bytes, optional `text=` argument, headers. -/
structure HttpResponse where
  status : Int
  body : Bytes
  text : Option String
  headers : List (String × String)
deriving DecidableEq

/-- The `str(e)` text of the exception interpolated into the 504 response. -/
def errText : BleErr → String
  | .timeout => "Timed out waiting for response"
  | .connectionError => "Could not connect"

/-- src/main.py lines 169-182, src/macedition.py lines 187-200: the error
translation of the HTTP adapter.  Any exception from the cycle yields
`web.Response(text=f"Error communicating with device: ...", status=504)`;
a response buffer that fails to decode yields
`web.Response(body=resp_bytes, status=200)`; a decoded envelope yields
`web.Response(body=body, status=status, headers=headers)`. -/
def handle_request (cycle : Except BleErr Bytes) (parse : Bytes → RespParse) :
    HttpResponse :=
  match cycle with
  | .error e =>
    { status := 504, body := []
      text := some ("Error communicating with device: " ++ errText e), headers := [] }
  | .ok resp_bytes =>
    match parse resp_bytes with
    | .fail => { status := 200, body := resp_bytes, text := none, headers := [] }
    | .ok s h b => { status := s, body := b, text := none, headers := h }

/-- The module-level globals (src/main.py lines 185-187, src/macedition.py
lines 203-205): the connected device address and the two characteristic
uuids.  This is the only state that survives across HTTP requests. -/
structure Globals where
  connected_address : Option String
  CMD_CHAR : Option String
  RESP_CHAR : Option String
deriving DecidableEq

/-- src/main.py lines 149-182, src/macedition.py lines 167-200: one HTTP
request handled end to end.  `discovered` oracles the device selection and
characteristic detection performed when `connected_address` is unset; the
response is the adapter translation of the cycle outcome.  The returned
`Globals` is the only state carried to the next request. -/
def handle_request_step (g : Globals) (discovered : String × String × String)
    (cmd_id : String) (inbound : List InboundData) (parse : Bytes → RespParse) :
    Globals × HttpResponse :=
  let g' :=
    match g.connected_address with
    | none =>
      { connected_address := some discovered.1
        CMD_CHAR := some discovered.2.1
        RESP_CHAR := some discovered.2.2 }
    | some _ => g
  (g', handle_request (send_command_and_get_response cmd_id inbound) parse)

/-- A message whose decode pipeline raises at some stage (dropped by the
`except` clause of `notif_handler`). -/
def malformedInbound : InboundData → Bool
  | .badUtf8 => true
  | .badJson => true
  | .msg _ .bad _ _ => true
  | .msg _ _ .invalid _ => true
  | _ => false

/-- The raw `final` field of a message (false for undecodable messages). -/
def hasFinalFlag : InboundData → Bool
  | .msg _ _ _ final => final
  | _ => false

/-- Messages that actually reach `finished.set()`: fully decoded and final. -/
def effFinal : InboundData → Bool
  | .msg _ (.ok _) .absent final => final
  | .msg _ (.ok _) (.valid _) final => final
  | _ => false

/-- Messages that store a payload under id `rid`: fully decoded, id = rid. -/
def fragFor (rid : Option String) : InboundData → Bool
  | .msg i (.ok _) .absent _ => decide (i = rid)
  | .msg i (.ok _) (.valid _) _ => decide (i = rid)
  | _ => false

/-- A gap-free delivery for id `rid`: each entry of `l` as one well-formed
fragment message, with arbitrary final flags. -/
def fragMsgs (rid : Option String) (l : List (Int × Bytes))
    (fin : (Int × Bytes) → Bool) : List InboundData :=
  l.map (fun p => InboundData.msg rid (SeqField.ok p.1) (PayloadField.valid p.2) (fin p))

theorem ingestList_nil (st : SessionState) : ingestList st [] = st := rfl

theorem ingestList_cons (st : SessionState) (d : InboundData) (t : List InboundData) :
    ingestList st (d :: t) = ingestList (notif_handler st d) t := rfl

/-- The payload bytes a fully decoded message stores. -/
def payloadBytes : PayloadField → Bytes
  | .absent => []
  | .valid p => p
  | .invalid => []

theorem notif_handler_msg_stores (st : SessionState) (rid : Option String)
    (s : Int) (pf : PayloadField) (final : Bool) (h : pf ≠ PayloadField.invalid) :
    notif_handler st (InboundData.msg rid (SeqField.ok s) pf final) =
      { fragments := dictSet st.fragments rid
          (dictSet ((dictGet st.fragments rid).getD []) s (payloadBytes pf))
        finished := st.finished || final } := by
  cases pf with
  | absent => rfl
  | valid p => rfl
  | invalid => exact absurd rfl h

theorem notif_handler_finished (st : SessionState) (d : InboundData) :
    (notif_handler st d).finished = (st.finished || effFinal d) := by
  cases d with
  | badUtf8 => simp [notif_handler, effFinal]
  | badJson => simp [notif_handler, effFinal]
  | msg rid seqf pf final =>
    cases seqf with
    | bad => simp [notif_handler, effFinal]
    | ok s => cases pf <;> simp [notif_handler, effFinal]

theorem ingestList_finished (l : List InboundData) :
    ∀ st : SessionState, (ingestList st l).finished = (st.finished || l.any effFinal) := by
  induction l with
  | nil => intro st; simp [ingestList_nil]
  | cons d t ih =>
    intro st
    rw [ingestList_cons, ih, notif_handler_finished]
    simp [Bool.or_assoc]

theorem effFinal_imp_hasFinalFlag (d : InboundData) (h : effFinal d = true) :
    hasFinalFlag d = true := by
  cases d with
  | badUtf8 => simp [effFinal] at h
  | badJson => simp [effFinal] at h
  | msg rid seqf pf final =>
    cases seqf with
    | bad => simp [effFinal] at h
    | ok s => cases pf <;> simp_all [effFinal, hasFinalFlag]

/-- Accumulating the per-id inner dict: `d` then one `dictSet` per entry. -/
def innerIngest (d : List (Int × Bytes)) (l : List (Int × Bytes)) : List (Int × Bytes) :=
  l.foldl (fun acc p => dictSet acc p.1 p.2) d

theorem innerIngest_nil (d : List (Int × Bytes)) : innerIngest d [] = d := rfl

theorem innerIngest_cons (d : List (Int × Bytes)) (p : Int × Bytes) (t : List (Int × Bytes)) :
    innerIngest d (p :: t) = innerIngest (dictSet d p.1 p.2) t := rfl

theorem ingestList_fragMsgs_get (rid : Option String) (fin : (Int × Bytes) → Bool) :
    ∀ (l : List (Int × Bytes)) (st : SessionState) (d : List (Int × Bytes)),
      dictGet st.fragments rid = some d →
      dictGet (ingestList st (fragMsgs rid l fin)).fragments rid
        = some (innerIngest d l) := by
  intro l
  induction l with
  | nil =>
    intro st d h
    simpa [fragMsgs, ingestList_nil, innerIngest_nil] using h
  | cons p t ih =>
    intro st d h
    have hmsgs : fragMsgs rid (p :: t) fin
        = InboundData.msg rid (SeqField.ok p.1) (PayloadField.valid p.2) (fin p)
            :: fragMsgs rid t fin := rfl
    rw [hmsgs, ingestList_cons]
    have hstore := notif_handler_msg_stores st rid p.1 (PayloadField.valid p.2) (fin p)
      (by intro hc; exact PayloadField.noConfusion hc)
    have hget : dictGet (notif_handler st
        (InboundData.msg rid (SeqField.ok p.1) (PayloadField.valid p.2) (fin p))).fragments rid
        = some (dictSet d p.1 p.2) := by
      rw [hstore]
      show dictGet (dictSet st.fragments rid _) rid = _
      rw [dictGet_dictSet_self, h]
      rfl
    rw [ih _ _ hget, innerIngest_cons]

theorem assembleFor_fragMsgs (rid : Option String) (fin : (Int × Bytes) → Bool)
    (l : List (Int × Bytes)) :
    assembleFor (ingestList initSession (fragMsgs rid l fin)) rid
      = assembleParts (innerIngest [] l) := by
  cases l with
  | nil => rfl
  | cons p t =>
    have hmsgs : fragMsgs rid (p :: t) fin
        = InboundData.msg rid (SeqField.ok p.1) (PayloadField.valid p.2) (fin p)
            :: fragMsgs rid t fin := rfl
    rw [hmsgs, ingestList_cons]
    have hstore := notif_handler_msg_stores initSession rid p.1 (PayloadField.valid p.2) (fin p)
      (by intro hc; exact PayloadField.noConfusion hc)
    have hget : dictGet (notif_handler initSession
        (InboundData.msg rid (SeqField.ok p.1) (PayloadField.valid p.2) (fin p))).fragments rid
        = some (dictSet [] p.1 p.2) := by
      rw [hstore]
      show dictGet (dictSet ([] : List (Option String × List (Int × Bytes))) rid _) rid = _
      rw [dictGet_dictSet_self]
      rfl
    rw [assembleFor, ingestList_fragMsgs_get rid fin t _ _ hget, innerIngest_cons]
    rfl

theorem innerIngest_of_fresh :
    ∀ (l d : List (Int × Bytes)),
      (∀ k ∈ l.map Prod.fst, dictGet d k = none) →
      (l.map Prod.fst).Nodup →
      innerIngest d l = d ++ l := by
  intro l
  induction l with
  | nil => intro d _ _; simp [innerIngest_nil]
  | cons p t ih =>
    intro d hfresh hnd
    obtain ⟨k, v⟩ := p
    simp only [List.map_cons, List.nodup_cons] at hnd
    have h0 : dictGet d k = none := hfresh k (by simp)
    rw [innerIngest_cons]
    show innerIngest (dictSet d k v) t = _
    rw [dictSet_of_get_none _ _ _ h0]
    have hfresh' : ∀ k' ∈ t.map Prod.fst, dictGet (d ++ [(k, v)]) k' = none := by
      intro k' hk'
      rw [dictGet_append]
      have h1 : dictGet d k' = none := hfresh k' (by simp [hk'])
      rw [h1]
      have hkk : k ≠ k' := by
        intro he
        exact hnd.1 (he ▸ hk')
      simp [dictGet, hkk]
    rw [ih _ hfresh' hnd.2]
    simp

theorem dictGet_perm_eq {l l' : List (Int × Bytes)} (hp : l.Perm l')
    (hnd : (l.map Prod.fst).Nodup) (k : Int) : dictGet l k = dictGet l' k := by
  have hnd' : (l'.map Prod.fst).Nodup := (hp.map Prod.fst).nodup hnd
  cases hget : dictGet l k with
  | some v =>
    exact (dictGet_of_mem_nodup _ _ _ hnd' (hp.mem_iff.mp (dictGet_mem _ _ _ hget))).symm
  | none =>
    have h1 : k ∉ l.map Prod.fst := (dictGet_eq_none_iff _ _).mp hget
    have h2 : k ∉ l'.map Prod.fst := fun hmem => h1 ((hp.map Prod.fst).mem_iff.mpr hmem)
    exact ((dictGet_eq_none_iff _ _).mpr h2).symm

theorem sortKeys_perm_eq {ks ks' : List Int} (hp : ks.Perm ks') :
    sortKeys ks = sortKeys ks' := by
  unfold sortKeys
  exact List.eq_of_perm_of_sorted
    ((List.perm_insertionSort _ ks).trans (hp.trans (List.perm_insertionSort _ ks').symm))
    (List.sorted_insertionSort (fun a b : Int => a ≤ b) ks)
    (List.sorted_insertionSort (fun a b : Int => a ≤ b) ks')

theorem assembleParts_perm {l l' : List (Int × Bytes)} (hp : l.Perm l')
    (hnd : (l.map Prod.fst).Nodup) : assembleParts l = assembleParts l' := by
  unfold assembleParts
  rw [sortKeys_perm_eq (hp.map Prod.fst)]
  congr 1
  apply List.map_congr_left
  intro k _
  rw [dictGet_perm_eq hp hnd k]

theorem map_fst_orderedInsert (p : Int × Bytes) (L : List (Int × Bytes)) :
    (List.orderedInsert pairLe p L).map Prod.fst
      = List.orderedInsert (fun a b : Int => a ≤ b) p.1 (L.map Prod.fst) := by
  induction L with
  | nil => simp [List.orderedInsert]
  | cons q t ih =>
    by_cases h : p.1 ≤ q.1
    · rw [List.orderedInsert_of_le _ _ (show pairLe p q from h), List.map_cons, List.map_cons,
        List.orderedInsert_of_le _ _ h]
    · have h1 : ¬ pairLe p q := h
      simp only [List.orderedInsert, if_neg h1, if_neg h, List.map_cons, ih]

theorem map_fst_sortPairs (l : List (Int × Bytes)) :
    (sortPairs l).map Prod.fst = sortKeys (l.map Prod.fst) := by
  induction l with
  | nil => rfl
  | cons p t ih =>
    show (List.orderedInsert pairLe p (sortPairs t)).map Prod.fst = _
    rw [map_fst_orderedInsert, ih]
    rfl

theorem assembleParts_eq_sorted_concat (l : List (Int × Bytes))
    (hnd : (l.map Prod.fst).Nodup) :
    assembleParts l = ((sortPairs l).map Prod.snd).flatten := by
  unfold assembleParts
  rw [← map_fst_sortPairs, List.map_map]
  congr 1
  apply List.map_congr_left
  intro p hp
  have hmem : p ∈ l := (List.perm_insertionSort pairLe l).mem_iff.mp hp
  have hget : dictGet l p.1 = some p.2 := dictGet_of_mem_nodup l p.1 p.2 hnd (by
    simpa using hmem)
  simp [Function.comp, hget]

theorem notif_handler_get_other (st : SessionState) (d : InboundData)
    (rid : Option String) (h : fragFor rid d = false) :
    dictGet (notif_handler st d).fragments rid = dictGet st.fragments rid := by
  cases d with
  | badUtf8 => rfl
  | badJson => rfl
  | msg i seqf pf final =>
    cases seqf with
    | bad => rfl
    | ok s =>
      cases pf with
      | invalid => rfl
      | absent =>
        have hne : rid ≠ i := by
          intro he
          simp [fragFor, he.symm] at h
        rw [notif_handler_msg_stores st i s PayloadField.absent final
          (by intro hc; exact PayloadField.noConfusion hc)]
        exact dictGet_dictSet_ne _ _ _ _ hne
      | valid p =>
        have hne : rid ≠ i := by
          intro he
          simp [fragFor, he.symm] at h
        rw [notif_handler_msg_stores st i s (PayloadField.valid p) final
          (by intro hc; exact PayloadField.noConfusion hc)]
        exact dictGet_dictSet_ne _ _ _ _ hne

theorem ingestList_get_filter (rid : Option String) :
    ∀ (l : List InboundData) (st st' : SessionState),
      dictGet st.fragments rid = dictGet st'.fragments rid →
      dictGet (ingestList st l).fragments rid
        = dictGet (ingestList st' (l.filter (fragFor rid))).fragments rid := by
  intro l
  induction l with
  | nil => intro st st' h; simpa [ingestList_nil] using h
  | cons d t ih =>
    intro st st' h
    by_cases hf : fragFor rid d = true
    · rw [List.filter_cons_of_pos hf, ingestList_cons, ingestList_cons]
      apply ih
      cases d with
      | badUtf8 => simp [fragFor] at hf
      | badJson => simp [fragFor] at hf
      | msg i seqf pf final =>
        cases seqf with
        | bad => simp [fragFor] at hf
        | ok s =>
          cases pf with
          | invalid => simp [fragFor] at hf
          | absent =>
            have hi : i = rid := by simpa [fragFor] using hf
            subst hi
            rw [notif_handler_msg_stores st i s PayloadField.absent final
                (by intro hc; exact PayloadField.noConfusion hc),
              notif_handler_msg_stores st' i s PayloadField.absent final
                (by intro hc; exact PayloadField.noConfusion hc)]
            show dictGet (dictSet st.fragments i _) i = dictGet (dictSet st'.fragments i _) i
            rw [dictGet_dictSet_self, dictGet_dictSet_self, h]
          | valid p =>
            have hi : i = rid := by simpa [fragFor] using hf
            subst hi
            rw [notif_handler_msg_stores st i s (PayloadField.valid p) final
                (by intro hc; exact PayloadField.noConfusion hc),
              notif_handler_msg_stores st' i s (PayloadField.valid p) final
                (by intro hc; exact PayloadField.noConfusion hc)]
            show dictGet (dictSet st.fragments i _) i = dictGet (dictSet st'.fragments i _) i
            rw [dictGet_dictSet_self, dictGet_dictSet_self, h]
    · have hf' : fragFor rid d = false := by
        cases hval : fragFor rid d
        · rfl
        · exact absurd hval hf
      rw [List.filter_cons_of_neg (by rw [hf']; intro hc; exact Bool.noConfusion hc),
        ingestList_cons]
      apply ih
      rw [notif_handler_get_other st d rid hf', h]

/-- C1: with fragments stored for id "X" at seq 0 (payload "A") and seq 2
(payload "C", final=true) but seq 1 missing, the code does not fail with any
assembly error: `send_command_and_get_response` silently returns the
truncated concatenation "AC" of the present fragments, skipping the gap.
This contradicts the claim that assembly must fail with `AssemblyError`
when a sequence number in `0..max` is missing; the assembly at src/main.py
line 138 / src/macedition.py line 162 performs no gap check at all. -/
theorem C1_gap_silently_truncated :
    send_command_and_get_response "X"
      [InboundData.msg (some "X") (SeqField.ok 0) (PayloadField.valid [65]) false,
       InboundData.msg (some "X") (SeqField.ok 2) (PayloadField.valid [67]) true]
      = Except.ok [65, 67] := by
  rfl

/-- The spec's example request body `json.dumps({"a":1})`, eight bytes. -/
def specBody : Bytes := [123, 34, 97, 34, 58, 32, 49, 125]

/-- C2: for every buffer `b` and chunk size `n > 0`, `chunk_bytes` succeeds
and its chunks concatenate back to `b`, every chunk except possibly the
last has length exactly `n`, and an 8-byte buffer with `n = 4` splits into
exactly the two 4-byte halves. -/
theorem C2_split_concat_and_chunk_lengths (b : Bytes) (n : Nat) (hn : 0 < n) :
    ∃ chunks : List Bytes, chunk_bytes b n = some chunks ∧
      chunks.flatten = b ∧
      (∀ c ∈ chunks.dropLast, c.length = n) ∧
      (b.length = 8 → n = 4 → chunks = [b.take 4, b.drop 4]) := by
  obtain ⟨m, rfl⟩ : ∃ m, n = m + 1 := ⟨n - 1, by omega⟩
  refine ⟨chunkGo m b, rfl, chunkGo_join m b, chunkGo_dropLast_length m b, ?_⟩
  intro hlen hn4
  have hm : m = 3 := by omega
  subst hm
  have hb : b ≠ [] := by
    intro hnil
    rw [hnil] at hlen
    simp at hlen
  rw [chunkGo_step 3 b hb]
  have hd4 : (List.drop 4 b).length = 4 := by simp [List.length_drop, hlen]
  have hd4ne : List.drop 4 b ≠ [] := by
    intro hnil
    rw [hnil] at hd4
    simp at hd4
  rw [chunkGo_step 3 _ hd4ne, List.drop_drop]
  have h8 : List.drop (4 + 4) b = [] := List.drop_eq_nil_of_le (le_of_eq hlen)
  rw [h8, chunkGo_nil, List.take_of_length_le (le_of_eq hd4)]

/-- Witness for C2 at the spec's scenario: the 8-byte body with chunk size 4. -/
theorem C2_witness :
    0 < 4 ∧ ∃ chunks : List Bytes, chunk_bytes specBody 4 = some chunks ∧
      chunks.flatten = specBody ∧
      (∀ c ∈ chunks.dropLast, c.length = 4) ∧
      (specBody.length = 8 → 4 = 4 → chunks = [specBody.take 4, specBody.drop 4]) :=
  ⟨by decide, C2_split_concat_and_chunk_lengths specBody 4 (by decide)⟩

/-- C4 counterexample: a structurally valid JSON notification with all
declared fields missing except a true `final` — the wire message whose JSON
object holds only the pair final/true — is NOT dropped.  `msg.get("id")`
defaults to `None`, `int(msg.get("seq", 0))` to `0`, the payload to `b""`,
so the handler stores `b""` at `fragments[None][0]` and calls
`finished.set()` (src/main.py lines 106-113, src/macedition.py lines
135-142): a fragment is stored and the pending cycle is marked complete,
refuting the claim that a message with declared fields missing stores no
fragment and marks no id complete. -/
theorem C4_counterexample :
    (notif_handler initSession
        (InboundData.msg none (SeqField.ok 0) PayloadField.absent true)).fragments
      = [(none, [(0, [])])] ∧
    (notif_handler initSession
        (InboundData.msg none (SeqField.ok 0) PayloadField.absent true)).finished = true ∧
    notif_handler initSession
        (InboundData.msg none (SeqField.ok 0) PayloadField.absent true) ≠ initSession := by
  decide

/-- C4 as amended: an inbound notification whose decode raises — not valid
UTF-8 under text framing, not valid JSON, a `seq` field `int()` rejects, or
a `payload_b64` that base64 decoding rejects — is dropped by `notif_handler`
without any state change: no fragment is stored, no id is marked complete,
and — the handler being a total function, the exception having been
caught — nothing is raised to the caller.  A structurally valid JSON
message with declared fields merely missing is, however, not dropped: the
accessor defaults substitute id `None`, seq `0` and payload `b""`, the
empty payload is stored at `buffer[None][0]`, and a true `final` field
marks the cycle complete. -/
theorem C4_fragment_handling (st : SessionState) (d : InboundData)
    (h : malformedInbound d = true) :
    (notif_handler st d = st ∧
     (notif_handler st d).fragments = st.fragments ∧
     (notif_handler st d).finished = st.finished) ∧
    (∀ f : Bool,
      notif_handler st (InboundData.msg none (SeqField.ok 0) PayloadField.absent f)
        = { fragments := dictSet st.fragments none
              (dictSet ((dictGet st.fragments none).getD []) 0 ([] : Bytes))
            finished := st.finished || f }) := by
  have heq : notif_handler st d = st := by
    cases d with
    | badUtf8 => rfl
    | badJson => rfl
    | msg i seqf pf final =>
      cases seqf with
      | bad => rfl
      | ok s =>
        cases pf with
        | invalid => rfl
        | absent => simp [malformedInbound] at h
        | valid p => simp [malformedInbound] at h
  exact ⟨⟨heq, by rw [heq], by rw [heq]⟩, fun f => rfl⟩

/-- Witness for C4: a non-UTF-8 notification against the fresh session is
dropped, while the fields-missing final-only message stores and completes. -/
theorem C4_witness :
    malformedInbound InboundData.badUtf8 = true ∧
    ((notif_handler initSession InboundData.badUtf8 = initSession ∧
      (notif_handler initSession InboundData.badUtf8).fragments = initSession.fragments ∧
      (notif_handler initSession InboundData.badUtf8).finished = initSession.finished) ∧
     (∀ f : Bool,
       notif_handler initSession (InboundData.msg none (SeqField.ok 0) PayloadField.absent f)
         = { fragments := dictSet initSession.fragments none
               (dictSet ((dictGet initSession.fragments none).getD []) 0 ([] : Bytes))
             finished := initSession.finished || f })) :=
  ⟨by decide, C4_fragment_handling initSession InboundData.badUtf8 (by decide)⟩

/-- C8: ingesting two fragments with the same id and seq stores the payload
of the one ingested last: after the second `fragments.setdefault(rid, {})[seq]
= payload` the slot holds the second payload (last-write-wins). -/
theorem C8_last_write_wins (st : SessionState) (rid : Option String) (seq : Int)
    (p₁ p₂ : Bytes) (f₁ f₂ : Bool) :
    dictGet ((dictGet (notif_handler
        (notif_handler st (InboundData.msg rid (SeqField.ok seq) (PayloadField.valid p₁) f₁))
        (InboundData.msg rid (SeqField.ok seq) (PayloadField.valid p₂) f₂)).fragments
        rid).getD []) seq = some p₂ := by
  rw [notif_handler_msg_stores _ rid seq (PayloadField.valid p₂) f₂
    (by intro hc; exact PayloadField.noConfusion hc)]
  show dictGet ((dictGet (dictSet _ rid _) rid).getD []) seq = some p₂
  rw [dictGet_dictSet_self]
  show dictGet (dictSet _ seq (payloadBytes (PayloadField.valid p₂))) seq = some p₂
  rw [dictGet_dictSet_self]
  rfl

/-- C10: every call to `send_command_and_get_response` builds its fragment
buffer from scratch (`fragments = {}` at src/main.py line 100 /
src/macedition.py line 122), so the response of a second HTTP request is
identical whatever notifications the first request's cycle ingested: the
first cycle's fragments are invisible to the second. -/
theorem C10_cycles_isolated (g : Globals) (disc : String × String × String)
    (cmd₁ cmd₂ : String) (inb₁ inb₁' inb₂ : List InboundData)
    (parse₁ parse₁' parse₂ : Bytes → RespParse) :
    (handle_request_step (handle_request_step g disc cmd₁ inb₁ parse₁).1
        disc cmd₂ inb₂ parse₂).2
      = (handle_request_step (handle_request_step g disc cmd₁ inb₁' parse₁').1
        disc cmd₂ inb₂ parse₂).2 := rfl

/-- C3: for a complete, gap-free fragment set for one id (distinct sequence
numbers, arbitrary final flags), ingesting the fragments in any delivery
order and then assembling that id yields the concatenation of the payloads
in ascending seq order, independent of the order of arrival. -/
theorem C3_assembly_order_independent (rid : Option String)
    (l l' : List (Int × Bytes)) (fin fin' : (Int × Bytes) → Bool)
    (hp : l.Perm l') (hnd : (l.map Prod.fst).Nodup) :
    assembleFor (ingestList initSession (fragMsgs rid l fin)) rid
      = assembleFor (ingestList initSession (fragMsgs rid l' fin')) rid
    ∧ assembleFor (ingestList initSession (fragMsgs rid l fin)) rid
      = ((sortPairs l).map Prod.snd).flatten := by
  have h1 := assembleFor_fragMsgs rid fin l
  have h2 := assembleFor_fragMsgs rid fin' l'
  have hfresh : ∀ k ∈ l.map Prod.fst, dictGet ([] : List (Int × Bytes)) k = none :=
    fun k _ => rfl
  have hfresh' : ∀ k ∈ l'.map Prod.fst, dictGet ([] : List (Int × Bytes)) k = none :=
    fun k _ => rfl
  have hnd' : (l'.map Prod.fst).Nodup := (hp.map Prod.fst).nodup hnd
  have hIl : innerIngest [] l = l := by
    simpa using innerIngest_of_fresh l [] hfresh hnd
  have hIl' : innerIngest [] l' = l' := by
    simpa using innerIngest_of_fresh l' [] hfresh' hnd'
  constructor
  · rw [h1, h2, hIl, hIl']
    exact assembleParts_perm hp hnd
  · rw [h1, hIl]
    exact assembleParts_eq_sorted_concat l hnd

/-- Witness for C3 at the spec's scenario: fragments (seq=1,"B"), (seq=0,"A"),
(seq=2 final,"C") delivered in that order assemble to "ABC". -/
theorem C3_witness :
    ([((1 : Int), ([66] : Bytes)), (0, [65]), (2, [67])]).Perm
        [((0 : Int), ([65] : Bytes)), (1, [66]), (2, [67])] ∧
    (([((1 : Int), ([66] : Bytes)), (0, [65]), (2, [67])]).map Prod.fst).Nodup ∧
    assembleFor (ingestList initSession (fragMsgs (some "X")
        [((1 : Int), ([66] : Bytes)), (0, [65]), (2, [67])]
        (fun p => decide (p.1 = 2)))) (some "X") = [65, 66, 67] := by
  refine ⟨by decide, by decide, ?_⟩
  have h := (C3_assembly_order_independent (some "X")
      [((1 : Int), ([66] : Bytes)), (0, [65]), (2, [67])]
      [((0 : Int), ([65] : Bytes)), (1, [66]), (2, [67])]
      (fun p => decide (p.1 = 2)) (fun p => decide (p.1 = 2))
      (by decide) (by decide)).2
  rw [h]
  rfl

/-- C5: a cycle during which no fragment with a true final flag is received
fails with `TimeoutError` (the `asyncio.wait_for` on the 90-second default
`REQUEST_TIMEOUT` expires, re-raised at src/main.py lines 130-133 /
src/macedition.py lines 155-158), and no reassembly state survives the
call: the next cycle at the process level behaves exactly as a cycle run
from the fresh empty session, whatever fragments the timed-out call had
stored. -/
theorem C5_timeout_and_eviction (cmd_id : String) (inbound : List InboundData)
    (h : ∀ d ∈ inbound, hasFinalFlag d = false) :
    send_command_and_get_response cmd_id inbound = Except.error BleErr.timeout ∧
    REQUEST_TIMEOUT = 90 ∧
    (∀ (g : Globals) (disc : String × String × String)
        (parse parse₂ : Bytes → RespParse) (cmd₂ : String) (inb₂ : List InboundData),
      (handle_request_step (handle_request_step g disc cmd_id inbound parse).1
          disc cmd₂ inb₂ parse₂).2
        = handle_request (send_command_and_get_response cmd₂ inb₂) parse₂) := by
  refine ⟨?_, rfl, fun g disc parse parse₂ cmd₂ inb₂ => rfl⟩
  have hany : inbound.any effFinal = false := by
    rw [List.any_eq_false]
    intro d hd hc
    have htrue := effFinal_imp_hasFinalFlag d hc
    rw [h d hd] at htrue
    exact Bool.noConfusion htrue
  have hfin : (ingestList initSession inbound).finished = false := by
    rw [ingestList_finished]
    simp [initSession, hany]
  show (if (ingestList initSession inbound).finished
        then Except.ok (assembleFor (ingestList initSession inbound) (some cmd_id))
        else Except.error BleErr.timeout) = Except.error BleErr.timeout
  rw [hfin]
  simp

/-- Witness for C5: a cycle that only ever receives a non-final fragment. -/
theorem C5_witness :
    (∀ d ∈ [InboundData.msg (some "X") (SeqField.ok 0) (PayloadField.valid [65]) false],
        hasFinalFlag d = false) ∧
    (send_command_and_get_response "X"
        [InboundData.msg (some "X") (SeqField.ok 0) (PayloadField.valid [65]) false]
        = Except.error BleErr.timeout ∧
      REQUEST_TIMEOUT = 90 ∧
      (∀ (g : Globals) (disc : String × String × String)
          (parse parse₂ : Bytes → RespParse) (cmd₂ : String) (inb₂ : List InboundData),
        (handle_request_step (handle_request_step g disc "X"
            [InboundData.msg (some "X") (SeqField.ok 0) (PayloadField.valid [65]) false]
            parse).1 disc cmd₂ inb₂ parse₂).2
          = handle_request (send_command_and_get_response cmd₂ inb₂) parse₂)) :=
  ⟨by decide, C5_timeout_and_eviction "X" _ (by decide)⟩

/-- C6 counterexample: when the assembled buffer cannot be decoded as a JSON
response envelope, the adapter does NOT send an HTTP error response — it
returns the raw buffer with success status 200 (src/main.py lines 181-182 /
src/macedition.py lines 199-200), refuting the claim that any unexpected
failure still yields a well-formed HTTP *error* response. -/
theorem C6_counterexample :
    (handle_request (Except.ok [255]) (fun _ => RespParse.fail)).status = 200 ∧
    ¬ 400 ≤ (handle_request (Except.ok [255]) (fun _ => RespParse.fail)).status :=
  ⟨rfl, by decide⟩

/-- C6 as amended: every exception from the request cycle yields the 504
response with the diagnostic text; an assembled buffer that cannot be
decoded yields a well-formed HTTP response with status 200 carrying the raw
buffer (a response, but not an error response); a decoded envelope is
forwarded as-is.  In every case the client receives a well-formed response. -/
theorem C6_adapter_responses (cycle : Except BleErr Bytes) (parse : Bytes → RespParse) :
    (∀ e, cycle = Except.error e →
        handle_request cycle parse =
          { status := 504, body := []
            text := some ("Error communicating with device: " ++ errText e)
            headers := [] }) ∧
    (∀ b, cycle = Except.ok b → parse b = RespParse.fail →
        handle_request cycle parse =
          { status := 200, body := b, text := none, headers := [] }) ∧
    (∀ b s hs bd, cycle = Except.ok b → parse b = RespParse.ok s hs bd →
        handle_request cycle parse =
          { status := s, body := bd, text := none, headers := hs }) := by
  refine ⟨?_, ?_, ?_⟩
  · intro e he
    subst he
    rfl
  · intro b hb hpf
    subst hb
    simp [handle_request, hpf]
  · intro b s hs bd hb hpf
    subst hb
    simp [handle_request, hpf]

/-- Witness for C6: a timed-out cycle produces the 504 diagnostic response. -/
theorem C6_witness :
    handle_request (Except.error BleErr.timeout) (fun _ => RespParse.fail) =
      { status := 504, body := []
        text := some ("Error communicating with device: " ++ errText BleErr.timeout)
        headers := [] } :=
  (C6_adapter_responses (Except.error BleErr.timeout) (fun _ => RespParse.fail)).1
    BleErr.timeout rfl

/-- C9: the assembled buffer for the submitted command's id is built only
from fragments whose id equals that id — filtering the delivery down to the
matching, well-formed fragments changes nothing — and if no fragment
carried the matching id the assembled buffer is empty. -/
theorem C9_assembly_only_matching_id (cmd_id : String) (inbound : List InboundData) :
    assembleFor (ingestList initSession inbound) (some cmd_id)
      = assembleFor (ingestList initSession
          (inbound.filter (fragFor (some cmd_id)))) (some cmd_id)
    ∧ ((∀ d ∈ inbound, fragFor (some cmd_id) d = false) →
        assembleFor (ingestList initSession inbound) (some cmd_id) = []) := by
  have hmain := ingestList_get_filter (some cmd_id) inbound initSession initSession rfl
  constructor
  · unfold assembleFor
    rw [hmain]
  · intro hall
    have hfil : inbound.filter (fragFor (some cmd_id)) = [] := by
      apply List.filter_eq_nil_iff.mpr
      intro d hd hc
      rw [hall d hd] at hc
      exact Bool.noConfusion hc
    unfold assembleFor
    rw [hmain, hfil]
    rfl

/-- Witness for C9: fragments under a foreign id and under the missing-id
key `None` contribute nothing; with no matching fragment the buffer is
empty. -/
theorem C9_witness :
    (∀ d ∈ [InboundData.msg (some "Y") (SeqField.ok 0) (PayloadField.valid [1]) true,
            InboundData.msg none (SeqField.ok 0) (PayloadField.valid [2]) true],
        fragFor (some "X") d = false) ∧
    assembleFor (ingestList initSession
        [InboundData.msg (some "Y") (SeqField.ok 0) (PayloadField.valid [1]) true,
         InboundData.msg none (SeqField.ok 0) (PayloadField.valid [2]) true])
      (some "X") = [] := by
  refine ⟨by decide, ?_⟩
  exact (C9_assembly_only_matching_id "X"
    [InboundData.msg (some "Y") (SeqField.ok 0) (PayloadField.valid [1]) true,
     InboundData.msg none (SeqField.ok 0) (PayloadField.valid [2]) true]).2 (by decide)
